import Mathlib

/-!
Verification of the lib_utils container library against its design
specification.  The development shallowly embeds the C templates
`FifoT.h` (bounded queue), `VectorT.h` (growable array) and `MapT.h`
(associative map) together with the `CharFifo.c` instantiation, and
proves or refutes the specified properties.

Machine integers of type `SIZE_T__` are represented as `Nat` values,
reduced modulo `2 ^ w` exactly where the C source can overflow
(`self->in++`, `self->out++`).  Buffers are lists of slots; a slot of
value `none` models unconstructed (or destroyed) memory, `some x` a
live element holding `x`.
-/

set_option maxHeartbeats 1000000
set_option maxRecDepth 100000

namespace LibUtils

/-- State of `FifoT_TYPE(T__, SIZE_T__)` from `include/lib_utils/FifoT.h`.
`in` is a Lean keyword, hence the fields are named `inC`/`outC`.  All five
counter fields are `SIZE_T__` machine words. -/
structure FifoT (α : Type) where
  fifo : List (Option α)
  first : Nat
  last : Nat
  inC : Nat
  outC : Nat
  capacity : Nat
deriving Repr, DecidableEq

/-- `FifoT_CTOR_IMPL` (`FifoT.h:235`) called with a non-NULL buffer of
`capacity` uninitialized slots: all four cursors are zeroed. -/
def FifoT_ctor (capacity : Nat) {α : Type} : FifoT α :=
  { fifo := List.replicate capacity none
    first := 0
    last := 0
    inC := 0
    outC := 0
    capacity := capacity }

/-- `FifoT_ISEMPTY_IMPL` (`FifoT.h:263`): `self->in == self->out`. -/
def FifoT_isEmpty {α : Type} (s : FifoT α) : Bool :=
  s.inC == s.outC

/-- `FifoT_GETSIZE_IMPL` (`FifoT.h:277`): returns `in - out` when
`in >= out`, and `out - in` otherwise (both unsigned machine
subtractions on values `< 2 ^ w`, so plain `Nat` subtraction in the
taken branch). -/
def FifoT_getSize {α : Type} (s : FifoT α) : Nat :=
  if s.inC ≥ s.outC then s.inC - s.outC else s.outC - s.inC

/-- `FifoT_ISFULL_IMPL` (`FifoT.h:270`): `getSize(self) == capacity`. -/
def FifoT_isFull {α : Type} (s : FifoT α) : Bool :=
  FifoT_getSize s == s.capacity

/-- `FifoT_PUSH_IMPL` (`FifoT.h:298`).  `copyOk` is the result of
`T__##_ctorCopy`; the C code stores it in an unused variable, asserts
on it in debug builds only, and proceeds regardless.  On copy failure
the written slot stays unconstructed (`none`).  `self->in++` wraps at
`2 ^ w`, `last` is advanced mod `capacity`. -/
def FifoT_push (w : Nat) {α : Type} (s : FifoT α) (item : α) (copyOk : Bool) :
    FifoT α × Bool :=
  if FifoT_isFull s then (s, false)
  else
    ({ s with
        fifo := s.fifo.set s.last (if copyOk then some item else none)
        last := (s.last + 1) % s.capacity
        inC := (s.inC + 1) % 2 ^ w }, true)

/-- `FifoT_POP_IMPL` (`FifoT.h:315`): destroys the slot at `first`,
advances `first` mod `capacity`, increments `out` (wrapping at `2 ^ w`). -/
def FifoT_pop (w : Nat) {α : Type} (s : FifoT α) : FifoT α × Bool :=
  if FifoT_isEmpty s then (s, false)
  else
    ({ s with
        fifo := s.fifo.set s.first none
        first := (s.first + 1) % s.capacity
        outC := (s.outC + 1) % 2 ^ w }, true)

/-- `FifoT_GETFIRST_IMPL` (`FifoT.h:329`): `NULL` (here `none`) when the
queue is empty, otherwise a pointer to the slot at `first` (here `some`
of that slot's contents). -/
def FifoT_getFirst {α : Type} (s : FifoT α) : Option (Option α) :=
  if FifoT_isEmpty s then none else s.fifo.get? s.first

/-- `CharFifo_forcedPush` (`src/CharFifo.c:58`): pop first when full, then
push unconditionally (`char_ctorCopy` always succeeds); the returned
flag reports whether an eviction happened. -/
def CharFifo_forcedPush (w : Nat) {α : Type} (s : FifoT α) (c : α) :
    FifoT α × Bool :=
  let evicted := if FifoT_isFull s then ((FifoT_pop w s).1, true) else (s, false)
  ((FifoT_push w evicted.1 c true).1, evicted.2)

/-- A client-visible queue operation: a push (with a copy constructor
that succeeds, as in `CharFifo`) or a pop. -/
inductive FifoOp (α : Type) where
  | push (x : α)
  | pop
deriving Repr, DecidableEq

/-- One operation applied to a queue state extended with ghost counters
of successful pushes and successful pops (the booleans returned by
`FifoT_push`/`FifoT_pop`). -/
def FifoT_step (w : Nat) {α : Type} (sc : FifoT α × Nat × Nat) (op : FifoOp α) :
    FifoT α × Nat × Nat :=
  match op with
  | FifoOp.push x =>
      let r := FifoT_push w sc.1 x true
      (r.1, sc.2.1 + (if r.2 then 1 else 0), sc.2.2)
  | FifoOp.pop =>
      let r := FifoT_pop w sc.1
      (r.1, sc.2.1, sc.2.2 + (if r.2 then 1 else 0))

/-- Run a sequence of queue operations. -/
def FifoT_run (w : Nat) {α : Type} (sc : FifoT α × Nat × Nat)
    (ops : List (FifoOp α)) : FifoT α × Nat × Nat :=
  ops.foldl (FifoT_step w) sc

/-- 255 rounds of push-then-pop followed by one final push: drives the
8-bit `in` counter past its maximum while the true size never exceeds 1. -/
def C1ops : List (FifoOp Nat) :=
  (List.replicate 255 [FifoOp.push 0, FifoOp.pop]).flatten ++ [FifoOp.push 0]

theorem addk_mod (a b n : Nat) : (a % n + b) % n = (a + b) % n := by
  rw [Nat.add_mod, Nat.mod_mod_of_dvd a dvd_rfl, ← Nat.add_mod]

theorem mod_add_inj {k l n : Nat} (f : Nat) (h : (f + k) % n = (f + l) % n)
    (hk : k < n) (hl : l < n) : k = l := by
  have hme : Nat.ModEq n (f + k) (f + l) := h
  have h2 : Nat.ModEq n k l := Nat.ModEq.add_left_cancel (Nat.ModEq.refl f) hme
  have h3 : k % n = l % n := h2
  rwa [Nat.mod_eq_of_lt hk, Nat.mod_eq_of_lt hl] at h3

/-- Representation invariant tying a `FifoT` machine state (before any
counter wrap-around) to the list of its live elements, oldest first:
the buffer has `capacity` slots, the counters have not overflowed,
`first`/`last` are the normalized read/write cursors, and slot
`(first + k) % capacity` holds the `k`-th oldest element. -/
def FifoRepr (w : Nat) {α : Type} (s : FifoT α) (l : List α) : Prop :=
  s.fifo.length = s.capacity ∧
  s.outC ≤ s.inC ∧
  s.inC - s.outC = l.length ∧
  l.length ≤ s.capacity ∧
  s.inC < 2 ^ w ∧
  s.first = s.outC % s.capacity ∧
  s.last = s.inC % s.capacity ∧
  ∀ k, k < l.length → s.fifo.get? ((s.first + k) % s.capacity) = some (l.get? k)

theorem FifoT_ctor_repr (w cap : Nat) {α : Type} :
    FifoRepr w (FifoT_ctor cap : FifoT α) [] := by
  refine ⟨List.length_replicate _ _, Nat.le_refl 0, rfl, Nat.zero_le _,
    Nat.pos_pow_of_pos w (by omega), ?_, ?_, ?_⟩
  · simp [FifoT_ctor]
  · simp [FifoT_ctor]
  · intro k hk
    simp at hk

theorem FifoT_isFull_repr {w : Nat} {α : Type} {s : FifoT α} {l : List α}
    (hr : FifoRepr w s l) : FifoT_isFull s = decide (l.length = s.capacity) := by
  obtain ⟨hbl, hle, hsz, hcap, hwlt, hf, hl, hslots⟩ := hr
  simp only [FifoT_isFull, FifoT_getSize, if_pos hle, hsz]
  by_cases h : l.length = s.capacity <;> simp [h]

theorem FifoT_getFirst_repr {w : Nat} {α : Type} {s : FifoT α} {l : List α}
    (hr : FifoRepr w s l) : FifoT_getFirst s = l.head?.map some := by
  obtain ⟨hbl, hle, hsz, hcap, hwlt, hf, hl, hslots⟩ := hr
  cases l with
  | nil =>
      have hio : s.inC = s.outC := by
        simp only [List.length_nil] at hsz
        omega
      simp [FifoT_getFirst, FifoT_isEmpty, hio]
  | cons x t =>
      have hne : FifoT_isEmpty s = false := by
        simp only [FifoT_isEmpty, beq_eq_false_iff_ne]
        intro h
        rw [h] at hsz
        simp at hsz
      have h0 := hslots 0 (by simp)
      have hfirst : (s.first + 0) % s.capacity = s.first := by
        have hcpos : 0 < s.capacity := by
          have := List.length_cons x t ▸ hcap
          omega
        rw [Nat.add_zero, hf, Nat.mod_mod_of_dvd _ dvd_rfl]
      rw [hfirst] at h0
      simp only [FifoT_getFirst, hne, Bool.false_eq_true, if_false, h0]
      simp

theorem FifoT_push_repr {w : Nat} {α : Type} {s : FifoT α} {l : List α}
    (hr : FifoRepr w s l) (hlen : l.length < s.capacity)
    (hw : s.inC + 1 < 2 ^ w) (x : α) :
    (FifoT_push w s x true).2 = true ∧
    FifoRepr w (FifoT_push w s x true).1 (l ++ [x]) ∧
    (FifoT_push w s x true).1.capacity = s.capacity ∧
    (FifoT_push w s x true).1.inC = s.inC + 1 ∧
    (FifoT_push w s x true).1.outC = s.outC := by
  have hfull : FifoT_isFull s = false := by
    rw [FifoT_isFull_repr hr]
    simp
    omega
  obtain ⟨hbl, hle, hsz, hcap, hwlt, hf, hl, hslots⟩ := hr
  have hcpos : 0 < s.capacity := by omega
  have hmodw : (s.inC + 1) % 2 ^ w = s.inC + 1 := Nat.mod_eq_of_lt hw
  have hlast : (s.last + 1) % s.capacity = (s.inC + 1) % s.capacity := by
    rw [hl, addk_mod]
  have hio : s.inC = s.outC + l.length := by omega
  have hpe : FifoT_push w s x true =
      ({ s with
          fifo := s.fifo.set s.last (some x)
          last := (s.last + 1) % s.capacity
          inC := s.inC + 1 }, true) := by
    simp [FifoT_push, hfull, hmodw]
  rw [hpe]
  refine ⟨rfl, ⟨?_, ?_, ?_, ?_, ?_, ?_, ?_, ?_⟩, rfl, rfl, rfl⟩
  · simpa using hbl
  · simp; omega
  · simp; omega
  · simp; omega
  · simpa using hw
  · simpa using hf
  · simpa using hlast
  · intro k hk
    simp only [List.length_append, List.length_cons, List.length_nil] at hk
    have hidx : (s.first + l.length) % s.capacity = s.last := by
      rw [hf, addk_mod, hl, hio]
    rcases Nat.lt_or_ge k l.length with hklt | hkge
    · have hne : (s.first + k) % s.capacity ≠ s.last := by
        rw [← hidx]
        intro hcontra
        have := mod_add_inj s.first hcontra (by omega) (by omega)
        omega
      have hold := hslots k hklt
      simp only []
      rw [List.get?_set_ne _ _ (fun h => hne h.symm)]
      rw [hold, List.get?_append hklt]
    · have hkeq : k = l.length := by omega
      subst hkeq
      simp only []
      rw [hidx, List.get?_set_eq_of_lt, List.get?_concat_length]
      rw [hbl]
      rw [hl]
      exact Nat.mod_lt _ hcpos

theorem FifoT_pop_repr {w : Nat} {α : Type} {s : FifoT α} {x : α} {l : List α}
    (hr : FifoRepr w s (x :: l)) :
    (FifoT_pop w s).2 = true ∧
    FifoRepr w (FifoT_pop w s).1 l ∧
    (FifoT_pop w s).1.capacity = s.capacity ∧
    (FifoT_pop w s).1.inC = s.inC ∧
    (FifoT_pop w s).1.outC = s.outC + 1 := by
  obtain ⟨hbl, hle, hsz, hcap, hwlt, hf, hl, hslots⟩ := hr
  simp only [List.length_cons] at hsz hcap
  have hcpos : 0 < s.capacity := by omega
  have hne : FifoT_isEmpty s = false := by
    simp only [FifoT_isEmpty, beq_eq_false_iff_ne]
    omega
  have hmodw : (s.outC + 1) % 2 ^ w = s.outC + 1 := Nat.mod_eq_of_lt (by omega)
  have hpe : FifoT_pop w s =
      ({ s with
          fifo := s.fifo.set s.first none
          first := (s.first + 1) % s.capacity
          outC := s.outC + 1 }, true) := by
    simp [FifoT_pop, hne, hmodw]
  rw [hpe]
  refine ⟨rfl, ⟨?_, ?_, ?_, ?_, ?_, ?_, ?_, ?_⟩, rfl, rfl, rfl⟩
  · simpa using hbl
  · simp; omega
  · simp; omega
  · simp; omega
  · simpa using hwlt
  · simp only []
    rw [hf, addk_mod]
  · simpa using hl
  · intro k hk
    simp only []
    have hidx : ((s.first + 1) % s.capacity + k) % s.capacity =
        (s.first + (k + 1)) % s.capacity := by
      rw [addk_mod, Nat.add_assoc, Nat.add_comm 1 k]
    have hfirst0 : (s.first + 0) % s.capacity = s.first := by
      rw [Nat.add_zero, hf, Nat.mod_mod_of_dvd _ dvd_rfl]
    have hne2 : s.first ≠ (s.first + (k + 1)) % s.capacity := by
      intro hcontra
      have hcontra2 : (s.first + 0) % s.capacity =
          (s.first + (k + 1)) % s.capacity := by
        rw [hfirst0]
        exact hcontra
      have := mod_add_inj s.first hcontra2 (by omega) (by omega)
      omega
    have hold := hslots (k + 1) (by simp only [List.length_cons]; omega)
    rw [hidx, List.get?_set_ne _ _ hne2, hold]
    simp

theorem FifoT_push_isFull {w : Nat} {α : Type} {s : FifoT α} {l : List α}
    (hr : FifoRepr w s l) (hful : l.length = s.capacity) (x : α) (c : Bool) :
    FifoT_push w s x c = (s, false) := by
  have h := FifoT_isFull_repr hr
  simp [FifoT_push, h, hful]

theorem FifoT_pop_empty {w : Nat} {α : Type} {s : FifoT α}
    (hr : FifoRepr w s []) : FifoT_pop w s = (s, false) := by
  obtain ⟨hbl, hle, hsz, hcap, hwlt, hf, hl, hslots⟩ := hr
  simp only [List.length_nil] at hsz
  have hio : s.inC = s.outC := by omega
  simp [FifoT_pop, FifoT_isEmpty, hio]

/-- The abstract bounded queue the ring buffer is supposed to implement:
a list of elements (oldest first); a push appends at the back when the
queue is not full, a pop drops the head. -/
def FifoSpec_step (cap : Nat) {α : Type} (l : List α) (op : FifoOp α) : List α :=
  match op with
  | FifoOp.push x => if l.length = cap then l else l ++ [x]
  | FifoOp.pop => l.tail

def FifoSpec_run (cap : Nat) {α : Type} (l : List α) (ops : List (FifoOp α)) :
    List α :=
  ops.foldl (FifoSpec_step cap) l

theorem FifoT_run_cons {w : Nat} {α : Type} (sc : FifoT α × Nat × Nat)
    (op : FifoOp α) (rest : List (FifoOp α)) :
    FifoT_run w sc (op :: rest) = FifoT_run w (FifoT_step w sc op) rest := rfl

theorem FifoSpec_run_cons (cap : Nat) {α : Type} (l : List α) (op : FifoOp α)
    (rest : List (FifoOp α)) :
    FifoSpec_run cap l (op :: rest) =
      FifoSpec_run cap (FifoSpec_step cap l op) rest := rfl

theorem FifoT_step_fst {w : Nat} {α : Type} (s : FifoT α) (p q p' q' : Nat)
    (op : FifoOp α) :
    (FifoT_step w (s, p, q) op).1 = (FifoT_step w (s, p', q') op).1 := by
  cases op <;> rfl

theorem FifoT_step_cnt1 {w : Nat} {α : Type} (s : FifoT α) (p q : Nat)
    (op : FifoOp α) :
    (FifoT_step w (s, p, q) op).2.1 = p + (FifoT_step w (s, 0, 0) op).2.1 := by
  cases op <;> simp [FifoT_step]

theorem FifoT_step_cnt2 {w : Nat} {α : Type} (s : FifoT α) (p q : Nat)
    (op : FifoOp α) :
    (FifoT_step w (s, p, q) op).2.2 = q + (FifoT_step w (s, 0, 0) op).2.2 := by
  cases op <;> simp [FifoT_step]

theorem FifoT_run_shift {w : Nat} {α : Type} (ops : List (FifoOp α))
    (sc : FifoT α × Nat × Nat) :
    FifoT_run w sc ops =
      ((FifoT_run w (sc.1, 0, 0) ops).1,
        sc.2.1 + (FifoT_run w (sc.1, 0, 0) ops).2.1,
        sc.2.2 + (FifoT_run w (sc.1, 0, 0) ops).2.2) := by
  induction ops generalizing sc with
  | nil => simp [FifoT_run]
  | cons op rest ih =>
      obtain ⟨s, p, q⟩ := sc
      rw [FifoT_run_cons, FifoT_run_cons]
      rw [ih (FifoT_step w (s, p, q) op), ih (FifoT_step w (s, 0, 0) op)]
      simp only [Prod.mk.injEq]
      rw [FifoT_step_fst s p q 0 0 op, FifoT_step_cnt1 s p q op,
        FifoT_step_cnt2 s p q op]
      refine ⟨rfl, by omega, by omega⟩

theorem FifoT_run_repr {w : Nat} {α : Type} (ops : List (FifoOp α))
    (s : FifoT α) (l : List α) (hr : FifoRepr w s l)
    (hb : s.inC + ops.length < 2 ^ w) :
    FifoRepr w (FifoT_run w (s, 0, 0) ops).1 (FifoSpec_run s.capacity l ops) ∧
    (FifoT_run w (s, 0, 0) ops).1.capacity = s.capacity ∧
    (FifoT_run w (s, 0, 0) ops).1.inC = s.inC + (FifoT_run w (s, 0, 0) ops).2.1 ∧
    (FifoT_run w (s, 0, 0) ops).1.outC =
      s.outC + (FifoT_run w (s, 0, 0) ops).2.2 := by
  induction ops generalizing s l with
  | nil =>
      refine ⟨hr, rfl, ?_, ?_⟩ <;> simp [FifoT_run]
  | cons op rest ih =>
      simp only [List.length_cons] at hb
      cases op with
      | push x =>
          by_cases hful : l.length = s.capacity
          · have hpe := FifoT_push_isFull hr hful x true
            have hstep : FifoT_step w ((s : FifoT α), 0, 0) (FifoOp.push x) =
                (s, 0, 0) := by
              simp [FifoT_step, hpe]
            have hspec : FifoSpec_step s.capacity l (FifoOp.push x) = l := by
              simp [FifoSpec_step, hful]
            rw [FifoT_run_cons, hstep, FifoSpec_run_cons, hspec]
            exact ih s l hr (by omega)
          · have hlt : l.length < s.capacity := by
              obtain ⟨_, _, _, hcap, _, _, _, _⟩ := hr
              omega
            have hw1 : s.inC + 1 < 2 ^ w := by omega
            obtain ⟨hret, hrep2, hcap2, hin2, hout2⟩ := FifoT_push_repr hr hlt hw1 x
            have hstep : FifoT_step w ((s : FifoT α), 0, 0) (FifoOp.push x) =
                ((FifoT_push w s x true).1, 1, 0) := by
              simp [FifoT_step, hret]
            have hspec : FifoSpec_step s.capacity l (FifoOp.push x) = l ++ [x] := by
              simp [FifoSpec_step, hful]
            rw [FifoT_run_cons, hstep, FifoSpec_run_cons, hspec]
            rw [FifoT_run_shift rest ((FifoT_push w s x true).1, 1, 0)]
            have hb2 : (FifoT_push w s x true).1.inC + rest.length < 2 ^ w := by
              rw [hin2]
              omega
            obtain ⟨ihr, ihcap, ihin, ihout⟩ :=
              ih (FifoT_push w s x true).1 (l ++ [x]) hrep2 hb2
            rw [hcap2] at ihr ihcap
            refine ⟨ihr, ihcap, ?_, ?_⟩
            · simp only []
              rw [ihin, hin2]
              omega
            · simp only []
              rw [ihout, hout2]
              omega
      | pop =>
          cases l with
          | nil =>
              have hpe := FifoT_pop_empty hr
              have hstep : FifoT_step w ((s : FifoT α), 0, 0) FifoOp.pop =
                  (s, 0, 0) := by
                simp [FifoT_step, hpe]
              rw [FifoT_run_cons, hstep, FifoSpec_run_cons]
              exact ih s [] hr (by omega)
          | cons y t =>
              obtain ⟨hret, hrep2, hcap2, hin2, hout2⟩ := FifoT_pop_repr hr
              have hstep : FifoT_step w ((s : FifoT α), 0, 0) FifoOp.pop =
                  ((FifoT_pop w s).1, 0, 1) := by
                simp [FifoT_step, hret]
              rw [FifoT_run_cons, hstep, FifoSpec_run_cons]
              have hspec : FifoSpec_step s.capacity (y :: t) FifoOp.pop = t := rfl
              rw [hspec]
              rw [FifoT_run_shift rest ((FifoT_pop w s).1, 0, 1)]
              have hb2 : (FifoT_pop w s).1.inC + rest.length < 2 ^ w := by
                rw [hin2]
                omega
              obtain ⟨ihr, ihcap, ihin, ihout⟩ := ih (FifoT_pop w s).1 t hrep2 hb2
              rw [hcap2] at ihr ihcap
              refine ⟨ihr, ihcap, ?_, ?_⟩
              · simp only []
                rw [ihin, hin2]
                omega
              · simp only []
                rw [ihout, hout2]
                omega

instance {w : Nat} {α : Type} [DecidableEq α] (s : FifoT α) (l : List α) :
    Decidable (FifoRepr w s l) := by
  unfold FifoRepr
  infer_instance

/-- C1: refuted (code bug).  With 8-bit counters and capacity 3, the
reachable run of 256 successful pushes interleaved with 255 successful
pops (true size never above 1) wraps `in` to 0 while `out` is 255;
`getSize` then takes the `out - in` branch and returns 255 instead of
the true logical size `in - out (mod 2^w) = 1` that wraparound-safe
subtraction would give. -/
theorem FifoT_getSize_overflow_bug :
    (FifoT_run 8 ((FifoT_ctor 3 : FifoT Nat), 0, 0) C1ops).2.1 = 256 ∧
    (FifoT_run 8 ((FifoT_ctor 3 : FifoT Nat), 0, 0) C1ops).2.2 = 255 ∧
    (FifoT_run 8 ((FifoT_ctor 3 : FifoT Nat), 0, 0) C1ops).1.inC = 0 ∧
    (FifoT_run 8 ((FifoT_ctor 3 : FifoT Nat), 0, 0) C1ops).1.outC = 255 ∧
    FifoT_getSize (FifoT_run 8 ((FifoT_ctor 3 : FifoT Nat), 0, 0) C1ops).1 = 255 := by
  decide

/-- The state reached from a fresh capacity-2 queue by one push. -/
def C3state : FifoT Nat := (FifoT_push 8 (FifoT_ctor 2) 7 true).1

/-- C3, counterexample: the claim reads `first = in mod capacity` and
`last = out mod capacity`; after a single push `first = 0` and
`last = 1` while `in mod capacity = 1` and `out mod capacity = 0` —
the two cursors are tied to the opposite counters. -/
theorem FifoT_first_last_swapped_cex :
    ¬ (C3state.first = C3state.inC % C3state.capacity ∧
       C3state.last = C3state.outC % C3state.capacity) := by
  decide

/-- C3, amended: for every operation sequence short enough that the
counters cannot wrap, the reached state satisfies `out <= in`,
`getSize = #successful pushes - #successful pops`, `getSize <= capacity`,
empty iff `in = out`, full iff `in - out = capacity`, and the cursors
satisfy `first = out mod capacity`, `last = in mod capacity` (the claim
had the two cursor equations swapped). -/
theorem FifoT_counter_invariants (w cap : Nat) {α : Type} (ops : List (FifoOp α))
    (st : FifoT α) (p q : Nat)
    (hrun : FifoT_run w ((FifoT_ctor cap : FifoT α), 0, 0) ops = (st, p, q))
    (hb : ops.length < 2 ^ w) :
    q ≤ p ∧
    FifoT_getSize st = p - q ∧
    FifoT_getSize st ≤ cap ∧
    (FifoT_isEmpty st = true ↔ st.inC = st.outC) ∧
    (FifoT_isFull st = true ↔ st.inC - st.outC = cap) ∧
    st.first = st.outC % cap ∧
    st.last = st.inC % cap := by
  obtain ⟨hrep, hcap, hin, hout⟩ :=
    FifoT_run_repr ops (FifoT_ctor cap) [] (FifoT_ctor_repr w cap)
      (by simpa [FifoT_ctor] using hb)
  rw [hrun] at hrep hcap hin hout
  simp only [FifoT_ctor] at hrep hcap hin hout
  obtain ⟨hbl, hle, hsz, hcaple, hwlt, hf, hl, hslots⟩ := hrep
  have hgs : FifoT_getSize st = st.inC - st.outC := by
    rw [FifoT_getSize, if_pos hle]
  refine ⟨by omega, by rw [hgs]; omega, by rw [hgs]; omega, ?_, ?_, ?_, ?_⟩
  · simp [FifoT_isEmpty]
  · rw [FifoT_isFull, hgs, ← hcap]
    simp
  · rw [hf, hcap]
  · rw [hl, hcap]

/-- The state reached from a fresh capacity-2 queue by push 5, pop, push 6:
2 successful pushes, 1 successful pop. -/
def C3wstate : FifoT Nat :=
  { fifo := [none, some 6], first := 1, last := 0, inC := 2, outC := 1,
    capacity := 2 }

theorem FifoT_counter_invariants_witness :
    1 ≤ 2 ∧
    FifoT_getSize C3wstate = 2 - 1 ∧
    FifoT_getSize C3wstate ≤ 2 ∧
    (FifoT_isEmpty C3wstate = true ↔ C3wstate.inC = C3wstate.outC) ∧
    (FifoT_isFull C3wstate = true ↔ C3wstate.inC - C3wstate.outC = 2) ∧
    C3wstate.first = C3wstate.outC % 2 ∧
    C3wstate.last = C3wstate.inC % 2 :=
  FifoT_counter_invariants 8 2 [FifoOp.push 5, FifoOp.pop, FifoOp.push 6]
    C3wstate 2 1 (by decide) (by decide)

/-- C4: confirmed.  As long as the counters cannot wrap, running any
operation sequence from a fresh queue leaves the machine state related
by `FifoRepr` to the abstract list queue (`FifoSpec_run`: pushes append
at the back when not full, pops remove at the front), and `getFirst`
returns exactly the head of that abstract queue.  Hence elements are
observed by `getFirst` and removed by `pop` in exactly push order. -/
theorem FifoT_fifo_order (w cap : Nat) {α : Type} (ops : List (FifoOp α))
    (hb : ops.length < 2 ^ w) :
    FifoRepr w (FifoT_run w ((FifoT_ctor cap : FifoT α), 0, 0) ops).1
      (FifoSpec_run cap [] ops) ∧
    FifoT_getFirst (FifoT_run w ((FifoT_ctor cap : FifoT α), 0, 0) ops).1 =
      (FifoSpec_run cap [] ops).head?.map some := by
  obtain ⟨hrep, -, -, -⟩ :=
    FifoT_run_repr ops (FifoT_ctor cap) [] (FifoT_ctor_repr w cap)
      (by simpa [FifoT_ctor] using hb)
  simp only [FifoT_ctor] at hrep
  exact ⟨hrep, FifoT_getFirst_repr hrep⟩

/-- Pushes of 0..9, as in the spec's capacity-10 example. -/
def C4ops : List (FifoOp Nat) := (List.range 10).map FifoOp.push

theorem FifoT_fifo_order_witness :
    C4ops.length < 2 ^ 8 ∧
    (FifoRepr 8 (FifoT_run 8 ((FifoT_ctor 10 : FifoT Nat), 0, 0) C4ops).1
        (FifoSpec_run 10 [] C4ops) ∧
      FifoT_getFirst (FifoT_run 8 ((FifoT_ctor 10 : FifoT Nat), 0, 0) C4ops).1 =
        (FifoSpec_run 10 [] C4ops).head?.map some) :=
  ⟨by decide, FifoT_fifo_order 8 10 C4ops (by decide)⟩

/-- Two pushes then 255 rounds of pop-then-push on a capacity-2 queue
with 8-bit counters: every operation succeeds, the true size never
exceeds 2, and the final state is truly full (257 - 255 = 2 live
elements) while `in` = 1 has wrapped below `out` = 255. -/
def C9wrapOps : List (FifoOp Nat) :=
  [FifoOp.push 1, FifoOp.push 2] ++
    (List.replicate 255 [FifoOp.pop, FifoOp.push 3]).flatten

/-- C9, counterexample to the claim as stated ("for every BoundedQueue
state, forcedPush always succeeds in pushing and returns true exactly
when the queue was full beforehand"): (a) on a capacity-0 queue (a
state `FifoT_ctor` admits) `forcedPush` returns true yet pushes and
evicts nothing, leaving the state unchanged; (b) on the reachable
wrapped state after `C9wrapOps` the queue is truly full (257 successful
pushes minus 255 successful pops = capacity 2), yet `forcedPush`
returns false, because the `out - in` branch of `getSize` (the C1 bug)
makes `isFull` miss fullness — and the unchecked push then overwrites
the oldest live element instead of evicting it. -/
theorem CharFifo_forcedPush_always_pushes_cex :
    (CharFifo_forcedPush 8 (FifoT_ctor 0 : FifoT Nat) 7 =
      ((FifoT_ctor 0 : FifoT Nat), true)) ∧
    (FifoT_run 8 ((FifoT_ctor 2 : FifoT Nat), 0, 0) C9wrapOps).2.1 = 257 ∧
    (FifoT_run 8 ((FifoT_ctor 2 : FifoT Nat), 0, 0) C9wrapOps).2.2 = 255 ∧
    (FifoT_run 8 ((FifoT_ctor 2 : FifoT Nat), 0, 0) C9wrapOps).1.capacity = 2 ∧
    (CharFifo_forcedPush 8
      (FifoT_run 8 ((FifoT_ctor 2 : FifoT Nat), 0, 0) C9wrapOps).1 7).2 =
      false := by
  decide

/-- C9, amended: for queues of positive capacity, in states whose
counters have not wrapped, `forcedPush` reports an eviction exactly
when the queue was full, afterwards the live contents are
`tail l ++ [x]` (full case: oldest evicted, item appended) or
`l ++ [x]` (non-full case: nothing evicted), so the item is always
pushed; and on a full queue of at least two elements the new
`getFirst` is the previously second-oldest element.  The capacity and
no-wrap hypotheses are forced by `CharFifo_forcedPush_always_pushes_cex`. -/
theorem CharFifo_forcedPush_spec {w : Nat} {α : Type} {s : FifoT α} {l : List α}
    (hr : FifoRepr w s l) (hcap : 0 < s.capacity) (hw : s.inC + 1 < 2 ^ w)
    (x : α) :
    ((CharFifo_forcedPush w s x).2 = decide (l.length = s.capacity)) ∧
    FifoRepr w (CharFifo_forcedPush w s x).1
      (if l.length = s.capacity then l.tail ++ [x] else l ++ [x]) ∧
    (2 ≤ l.length → l.length = s.capacity →
      FifoT_getFirst (CharFifo_forcedPush w s x).1 = (l.get? 1).map some) := by
  have hful' := FifoT_isFull_repr hr
  by_cases hful : l.length = s.capacity
  · cases l with
    | nil =>
        simp only [List.length_nil] at hful
        omega
    | cons y t =>
        obtain ⟨hret, hrep2, hcap2, hin2, hout2⟩ := FifoT_pop_repr hr
        have hfp : CharFifo_forcedPush w s x =
            ((FifoT_push w (FifoT_pop w s).1 x true).1, true) := by
          simp only [CharFifo_forcedPush, hful', hful]
          simp
        have hlt : t.length < (FifoT_pop w s).1.capacity := by
          rw [hcap2]
          simp only [List.length_cons] at hful
          omega
        have hw2 : (FifoT_pop w s).1.inC + 1 < 2 ^ w := by
          rw [hin2]
          exact hw
        obtain ⟨hret2, hrep3, hcap3, hin3, hout3⟩ := FifoT_push_repr hrep2 hlt hw2 x
        rw [hfp]
        refine ⟨by simp [hful], ?_, ?_⟩
        · simp only [if_pos hful]
          simpa using hrep3
        · intro h2 _
          rw [FifoT_getFirst_repr hrep3]
          cases t with
          | nil => simp at h2
          | cons z u => simp
  · have hlt : l.length < s.capacity := by
      obtain ⟨_, _, _, hc, _, _, _, _⟩ := hr
      omega
    obtain ⟨hret2, hrep3, hcap3, hin3, hout3⟩ := FifoT_push_repr hr hlt hw x
    have hfp : CharFifo_forcedPush w s x = ((FifoT_push w s x true).1, false) := by
      simp only [CharFifo_forcedPush, hful', hful]
      simp
    rw [hfp]
    refine ⟨by simp [hful], ?_, ?_⟩
    · simp only [if_neg hful]
      exact hrep3
    · intro h2 hcontra
      exact absurd hcontra hful

/-- A full capacity-2 queue holding 1 (oldest) then 2. -/
def C9state : FifoT Nat :=
  { fifo := [some 1, some 2], first := 0, last := 0, inC := 2, outC := 0,
    capacity := 2 }

theorem CharFifo_forcedPush_witness :
    FifoRepr 8 C9state [1, 2] ∧
    (((CharFifo_forcedPush 8 C9state 3).2 =
        decide (([1, 2] : List Nat).length = C9state.capacity)) ∧
      FifoRepr 8 (CharFifo_forcedPush 8 C9state 3).1
        (if ([1, 2] : List Nat).length = C9state.capacity
          then [1, 2].tail ++ [3] else [1, 2] ++ [3]) ∧
      (2 ≤ ([1, 2] : List Nat).length →
        ([1, 2] : List Nat).length = C9state.capacity →
        FifoT_getFirst (CharFifo_forcedPush 8 C9state 3).1 =
          (([1, 2] : List Nat).get? 1).map some)) :=
  ⟨by decide, CharFifo_forcedPush_spec (by decide) (by decide) (by decide) 3⟩

/-- C10: confirmed.  On a queue whose fullness check fails, `push`
returns true, increments `in` and advances `last` exactly once, and
leaves `out`, `first` and `capacity` untouched — all independently of
the boolean returned by the element's copy constructor, which is never
surfaced to the caller. -/
theorem FifoT_push_ignores_ctorCopy_result {w : Nat} {α : Type} (s : FifoT α)
    (x : α) (c : Bool) (h : FifoT_isFull s = false) :
    (FifoT_push w s x c).2 = true ∧
    (FifoT_push w s x c).1.inC = (s.inC + 1) % 2 ^ w ∧
    (FifoT_push w s x c).1.last = (s.last + 1) % s.capacity ∧
    (FifoT_push w s x c).1.outC = s.outC ∧
    (FifoT_push w s x c).1.first = s.first ∧
    (FifoT_push w s x c).1.capacity = s.capacity := by
  simp [FifoT_push, h]

theorem FifoT_push_ignores_ctorCopy_result_witness :
    FifoT_isFull (FifoT_ctor 2 : FifoT Nat) = false ∧
    ((FifoT_push 8 (FifoT_ctor 2 : FifoT Nat) 7 false).2 = true ∧
      (FifoT_push 8 (FifoT_ctor 2 : FifoT Nat) 7 false).1.inC =
        ((FifoT_ctor 2 : FifoT Nat).inC + 1) % 2 ^ 8 ∧
      (FifoT_push 8 (FifoT_ctor 2 : FifoT Nat) 7 false).1.last =
        ((FifoT_ctor 2 : FifoT Nat).last + 1) % (FifoT_ctor 2 : FifoT Nat).capacity ∧
      (FifoT_push 8 (FifoT_ctor 2 : FifoT Nat) 7 false).1.outC =
        (FifoT_ctor 2 : FifoT Nat).outC ∧
      (FifoT_push 8 (FifoT_ctor 2 : FifoT Nat) 7 false).1.first =
        (FifoT_ctor 2 : FifoT Nat).first ∧
      (FifoT_push 8 (FifoT_ctor 2 : FifoT Nat) 7 false).1.capacity =
        (FifoT_ctor 2 : FifoT Nat).capacity) :=
  ⟨by decide, FifoT_push_ignores_ctorCopy_result (FifoT_ctor 2) 7 false (by decide)⟩

/-- State of the struct declared by `VectorT_DECLARE(T, N, SIZE_T)`
(`include/lib_util/VectorT.h:44`): `vector_` is the allocated buffer of
`size_` slots (`none` = unconstructed memory), `nextFree_` the number of
live elements, `isStatic_` whether the buffer is caller-supplied. -/
structure VectorT (α : Type) where
  vector_ : List (Option α)
  size_ : Nat
  nextFree_ : Nat
  isStatic_ : Bool
deriving DecidableEq

/-- `N##_ctorStatic` (`VectorT.h:388`) with a non-NULL caller buffer. -/
def VectorT_ctorStatic (cap : Nat) {α : Type} : VectorT α :=
  { vector_ := List.replicate cap none
    size_ := cap
    nextFree_ := 0
    isStatic_ := true }

/-- `N##_ctor` (`VectorT.h:273`) in the case where `Memory_alloc`
succeeds. -/
def VectorT_ctor (cap : Nat) {α : Type} : VectorT α :=
  { vector_ := List.replicate cap none
    size_ := cap
    nextFree_ := 0
    isStatic_ := false }

/-- The copy loop of `VectorT_DEFINE_RESIZE_IF_NEEDED` (`VectorT.h:366`):
`for (; i < v->size_ && retval; ++i) { retval = ctorCopy(&newVector[i],
&v->vector_[i]); dtor(&v->vector_[i]); }`.  `copyOk i` is the result of
the `i`-th element copy (a failed copy leaves the destination slot
unconstructed; note the old element is destroyed either way).  The fuel
argument counts the remaining iterations, so the call site passes
`v.size_` with `i = 0`. -/
def VectorT_growCopyLoop {α : Type} (copyOk : Nat → Bool) :
    Nat → List (Option α) → List (Option α) → Nat → Bool →
      List (Option α) × List (Option α) × Nat × Bool
  | 0, oldB, newB, i, retval => (oldB, newB, i, retval)
  | Nat.succ n, oldB, newB, i, retval =>
      if retval then
        VectorT_growCopyLoop copyOk n (oldB.set i none)
          (newB.set i (if copyOk i then oldB.getD i none else none))
          (i + 1) (copyOk i)
      else (oldB, newB, i, retval)

/-- The unwind loop of `VectorT_DEFINE_RESIZE_IF_NEEDED` (`VectorT.h:371`):
`for (; i > 0 && !retval; i--) { dtor(&newVector[i]); }` (only entered
with `retval == false`).  Besides the resulting buffer it returns the
list of indices on which `T##_dtor` was invoked. -/
def VectorT_rollbackLoop {α : Type} :
    List (Option α) → List Nat → Nat → List (Option α) × List Nat
  | newB, log, 0 => (newB, log)
  | newB, log, Nat.succ j =>
      VectorT_rollbackLoop (newB.set (j + 1) none) (log ++ [j + 1]) j

/-- `VectorT_DEFINE_RESIZE_IF_NEEDED` (`VectorT.h:336`), heap variant.
`maxSize` is `Vector_MAX_SIZE`, `allocOk` whether `Memory_alloc`
succeeds.  Returns the new state, the boolean result, and the list of
new-buffer indices destroyed by the unwind loop.  Note that on a copy
failure the doubled buffer is still installed and `size_` doubled. -/
def VectorT_resizeIfNeeded (maxSize : Nat) (allocOk : Bool)
    (copyOk : Nat → Bool) {α : Type} (v : VectorT α) :
    VectorT α × Bool × List Nat :=
  if v.nextFree_ < v.size_ then (v, true, [])
  else if v.isStatic_ then (v, false, [])
  else
    if 2 * v.size_ ≤ maxSize ∧ allocOk then
      match VectorT_growCopyLoop copyOk v.size_ v.vector_
          (List.replicate (2 * v.size_) none) 0 true with
      | (_oldB, newB, i, retval) =>
          let rb := if retval then (newB, ([] : List Nat))
            else VectorT_rollbackLoop newB [] i
          ({ v with vector_ := rb.1, size_ := 2 * v.size_ }, retval, rb.2)
    else (v, false, [])

/-- `N##_pushBack` / `N##_pushBackByPtr` (`VectorT.h:419`, `435`):
`resizeIfNeeded(v) && ctorCopy(&v->vector_[v->nextFree_], item)` and on
success `v->nextFree_++`.  `itemOk` is the result of the element copy
constructor. -/
def VectorT_pushBack (maxSize : Nat) (allocOk : Bool) (copyOk : Nat → Bool)
    (itemOk : Bool) {α : Type} (v : VectorT α) (item : α) : VectorT α × Bool :=
  let r := VectorT_resizeIfNeeded maxSize allocOk copyOk v
  if r.2.1 then
    if itemOk then
      ({ r.1 with
          vector_ := r.1.vector_.set r.1.nextFree_ (some item)
          nextFree_ := r.1.nextFree_ + 1 }, true)
    else (r.1, false)
  else (r.1, false)

/-- `N##_getSize` (`VectorT.h:528`): returns `nextFree_`. -/
def VectorT_getSize {α : Type} (v : VectorT α) : Nat :=
  v.nextFree_

/-- `N##_isEmpty` (`VectorT.h:533`). -/
def VectorT_isEmpty {α : Type} (v : VectorT α) : Bool :=
  v.nextFree_ == 0

/-- `N##_popBack` (`VectorT.h:483`): destroys the last live element and
decrements `nextFree_`; no-op on an empty vector. -/
def VectorT_popBack {α : Type} (v : VectorT α) : VectorT α :=
  if 0 < v.nextFree_ then
    { v with
        vector_ := v.vector_.set (v.nextFree_ - 1) none
        nextFree_ := v.nextFree_ - 1 }
  else v

/-- `N##_replaceElementAt` (`VectorT.h:522`) with a total element
`assign` (plain-data elements): overwrites slot `n`, returns true. -/
def VectorT_replaceElementAt {α : Type} (v : VectorT α) (n : Nat) (x : α) :
    VectorT α × Bool :=
  ({ v with vector_ := v.vector_.set n (some x) }, true)

/-- `N##_clear` (`VectorT.h:538`): destroys the live elements and resets
`nextFree_` to 0. -/
def VectorT_clear {α : Type} (v : VectorT α) : VectorT α :=
  { v with
      vector_ := (List.range v.nextFree_).foldl (fun b i => b.set i none) v.vector_
      nextFree_ := 0 }

/-- Sequence of `pushBack` calls, conjoining their boolean results. -/
def VectorT_pushAll (maxSize : Nat) (allocOk : Bool) (copyOk : Nat → Bool)
    {α : Type} (v : VectorT α) (xs : List α) : VectorT α × Bool :=
  xs.foldl (fun acc x =>
    ((VectorT_pushBack maxSize allocOk copyOk true acc.1 x).1,
      acc.2 && (VectorT_pushBack maxSize allocOk copyOk true acc.1 x).2))
    (v, true)

/-- Representation invariant for a `VectorT`: the live elements form the
list `ys` in the first `nextFree_` slots, the remaining allocated slots
are unconstructed. -/
def VecRepr {α : Type} (v : VectorT α) (ys : List α) : Prop :=
  v.nextFree_ = ys.length ∧
  ys.length ≤ v.size_ ∧
  v.vector_ = ys.map some ++ List.replicate (v.size_ - ys.length) none

instance {α : Type} [DecidableEq α] (v : VectorT α) (ys : List α) :
    Decidable (VecRepr v ys) := by
  unfold VecRepr
  infer_instance

theorem set_append_len {α : Type} (a b : List α) (x : α) :
    (a ++ b).set a.length x = a ++ b.set 0 x := by
  induction a with
  | nil => simp
  | cons h t ih => simp [List.set, ih]

theorem map_some_set_push {α : Type} (ys : List α) (n : Nat) (x : α)
    (h : ys.length < n) :
    (List.map some ys ++ List.replicate (n - ys.length) none).set ys.length
        (some x) =
      List.map some (ys ++ [x]) ++
        List.replicate (n - (ys.length + 1)) (none : Option α) := by
  have h2 : n - ys.length = (n - ys.length - 1) + 1 := by omega
  have h3 : n - ys.length - 1 = n - (ys.length + 1) := Nat.sub_sub n ys.length 1
  rw [h2, h3, List.replicate_succ]
  have hml : (List.map some ys ++
        none :: List.replicate (n - (ys.length + 1)) none).set ys.length
        (some x) =
      List.map some ys ++
        (none :: List.replicate (n - (ys.length + 1)) none).set 0 (some x) := by
    have hlm : ys.length = (List.map some ys).length := by simp
    rw [hlm, set_append_len]
  rw [hml]
  simp

theorem VectorT_ctorStatic_repr (cap : Nat) {α : Type} :
    VecRepr (VectorT_ctorStatic cap : VectorT α) [] := by
  refine ⟨rfl, Nat.zero_le _, ?_⟩
  simp [VectorT_ctorStatic]

theorem VectorT_ctor_repr (cap : Nat) {α : Type} :
    VecRepr (VectorT_ctor cap : VectorT α) [] := by
  refine ⟨rfl, Nat.zero_le _, ?_⟩
  simp [VectorT_ctor]

theorem VectorT_pushBack_repr {α : Type} {v : VectorT α} {ys : List α}
    (hr : VecRepr v ys) (hroom : ys.length < v.size_)
    (maxSize : Nat) (allocOk : Bool) (copyOk : Nat → Bool) (x : α) :
    (VectorT_pushBack maxSize allocOk copyOk true v x).2 = true ∧
    VecRepr (VectorT_pushBack maxSize allocOk copyOk true v x).1 (ys ++ [x]) ∧
    (VectorT_pushBack maxSize allocOk copyOk true v x).1.size_ = v.size_ ∧
    (VectorT_pushBack maxSize allocOk copyOk true v x).1.isStatic_ =
      v.isStatic_ := by
  obtain ⟨hnf, hle, hbuf⟩ := hr
  have hres : VectorT_resizeIfNeeded maxSize allocOk copyOk v = (v, true, []) := by
    rw [VectorT_resizeIfNeeded, if_pos]
    omega
  have hpe : VectorT_pushBack maxSize allocOk copyOk true v x =
      ({ v with
          vector_ := v.vector_.set v.nextFree_ (some x)
          nextFree_ := v.nextFree_ + 1 }, true) := by
    simp [VectorT_pushBack, hres]
  rw [hpe]
  have hset : v.vector_.set v.nextFree_ (some x) =
      (ys ++ [x]).map some ++
        List.replicate (v.size_ - (ys.length + 1)) none := by
    rw [hbuf, hnf]
    exact map_some_set_push ys v.size_ x hroom
  refine ⟨rfl, ⟨?_, ?_, ?_⟩, rfl, rfl⟩
  · simp [hnf]
  · simp
    omega
  · simpa [List.length_append] using hset

theorem VectorT_pushBack_full_static {α : Type} {v : VectorT α} {ys : List α}
    (hr : VecRepr v ys) (hful : ys.length = v.size_) (hst : v.isStatic_ = true)
    (maxSize : Nat) (allocOk : Bool) (copyOk : Nat → Bool) (itemOk : Bool)
    (x : α) :
    VectorT_pushBack maxSize allocOk copyOk itemOk v x = (v, false) := by
  obtain ⟨hnf, hle, hbuf⟩ := hr
  have hres : VectorT_resizeIfNeeded maxSize allocOk copyOk v = (v, false, []) := by
    rw [VectorT_resizeIfNeeded, if_neg (by omega), if_pos hst]
  simp [VectorT_pushBack, hres]

theorem VectorT_pushAll_cons (maxSize : Nat) (allocOk : Bool)
    (copyOk : Nat → Bool) {α : Type} (v : VectorT α) (x : α) (xt : List α) :
    VectorT_pushAll maxSize allocOk copyOk v (x :: xt) =
      xt.foldl (fun acc y =>
        ((VectorT_pushBack maxSize allocOk copyOk true acc.1 y).1,
          acc.2 && (VectorT_pushBack maxSize allocOk copyOk true acc.1 y).2))
        ((VectorT_pushBack maxSize allocOk copyOk true v x).1,
          true && (VectorT_pushBack maxSize allocOk copyOk true v x).2) := rfl

theorem VectorT_pushAll_repr {α : Type} (xs : List α) (v : VectorT α)
    (ys : List α) (hr : VecRepr v ys) (hroom : ys.length + xs.length ≤ v.size_)
    (maxSize : Nat) (allocOk : Bool) (copyOk : Nat → Bool) :
    (VectorT_pushAll maxSize allocOk copyOk v xs).2 = true ∧
    VecRepr (VectorT_pushAll maxSize allocOk copyOk v xs).1 (ys ++ xs) ∧
    (VectorT_pushAll maxSize allocOk copyOk v xs).1.size_ = v.size_ ∧
    (VectorT_pushAll maxSize allocOk copyOk v xs).1.isStatic_ =
      v.isStatic_ := by
  induction xs generalizing v ys with
  | nil =>
      refine ⟨rfl, by simpa using hr, rfl, rfl⟩
  | cons x xt ih =>
      simp only [List.length_cons] at hroom
      obtain ⟨hok, hrep2, hsz2, hst2⟩ :=
        VectorT_pushBack_repr hr (by omega) maxSize allocOk copyOk x
      rw [VectorT_pushAll_cons, hok]
      have hstep : VectorT_pushAll maxSize allocOk copyOk
          (VectorT_pushBack maxSize allocOk copyOk true v x).1 xt =
          xt.foldl (fun acc y =>
            ((VectorT_pushBack maxSize allocOk copyOk true acc.1 y).1,
              acc.2 && (VectorT_pushBack maxSize allocOk copyOk true acc.1 y).2))
            ((VectorT_pushBack maxSize allocOk copyOk true v x).1, true) := rfl
      have hroom2 : (ys ++ [x]).length + xt.length ≤
          (VectorT_pushBack maxSize allocOk copyOk true v x).1.size_ := by
        rw [hsz2]
        simp
        omega
      obtain ⟨ihok, ihrep, ihsz, ihst⟩ := ih _ _ hrep2 hroom2
      rw [hstep] at ihok ihrep ihsz ihst
      simp only [Bool.true_and]
      refine ⟨ihok, by simpa using ihrep, by rw [ihsz, hsz2], by rw [ihst, hst2]⟩

/-- C8: confirmed.  Pushing `cap` elements into a fresh static vector of
capacity `cap` succeeds, arriving at exactly those elements; the next
push then fails, leaves the state (including every stored element and
the allocated size) completely unchanged, and growth is never attempted
(`size_` stays `cap`, the result does not depend on whether allocation
could succeed). -/
theorem VectorT_static_capacity_bound (cap : Nat) {α : Type} (xs : List α)
    (x : α) (hlen : xs.length = cap) (maxSize : Nat) (allocOk : Bool)
    (copyOk : Nat → Bool) :
    (VectorT_pushAll maxSize allocOk copyOk (VectorT_ctorStatic cap) xs).2 =
      true ∧
    VecRepr (VectorT_pushAll maxSize allocOk copyOk (VectorT_ctorStatic cap)
      xs).1 xs ∧
    VectorT_getSize (VectorT_pushAll maxSize allocOk copyOk
      (VectorT_ctorStatic cap) xs).1 = cap ∧
    (VectorT_pushAll maxSize allocOk copyOk (VectorT_ctorStatic cap) xs).1.size_
      = cap ∧
    VectorT_pushBack maxSize allocOk copyOk true
        (VectorT_pushAll maxSize allocOk copyOk (VectorT_ctorStatic cap) xs).1 x
      = ((VectorT_pushAll maxSize allocOk copyOk (VectorT_ctorStatic cap) xs).1,
        false) := by
  obtain ⟨hok, hrep, hsz, hst⟩ :=
    VectorT_pushAll_repr xs (VectorT_ctorStatic cap) [] (VectorT_ctorStatic_repr cap)
      (by simp [VectorT_ctorStatic]; omega) maxSize allocOk copyOk
  simp only [List.nil_append] at hrep
  have hszc : (VectorT_pushAll maxSize allocOk copyOk (VectorT_ctorStatic cap)
      xs).1.size_ = cap := by
    rw [hsz]
    rfl
  have hful : xs.length =
      (VectorT_pushAll maxSize allocOk copyOk (VectorT_ctorStatic cap)
        xs).1.size_ := by
    rw [hszc, hlen]
  have hstc : (VectorT_pushAll maxSize allocOk copyOk (VectorT_ctorStatic cap)
      xs).1.isStatic_ = true := by
    rw [hst]
    rfl
  refine ⟨hok, hrep, ?_, hszc, ?_⟩
  · rw [VectorT_getSize, hrep.1, hlen]
  · exact VectorT_pushBack_full_static hrep hful hstc maxSize allocOk copyOk
      true x

theorem VectorT_static_capacity_bound_witness :
    ([4, 5] : List Nat).length = 2 ∧
    ((VectorT_pushAll 100 true (fun _ => true) (VectorT_ctorStatic 2)
        ([4, 5] : List Nat)).2 = true ∧
      VecRepr (VectorT_pushAll 100 true (fun _ => true) (VectorT_ctorStatic 2)
        ([4, 5] : List Nat)).1 [4, 5] ∧
      VectorT_getSize (VectorT_pushAll 100 true (fun _ => true)
        (VectorT_ctorStatic 2) ([4, 5] : List Nat)).1 = 2 ∧
      (VectorT_pushAll 100 true (fun _ => true) (VectorT_ctorStatic 2)
        ([4, 5] : List Nat)).1.size_ = 2 ∧
      VectorT_pushBack 100 true (fun _ => true) true
          (VectorT_pushAll 100 true (fun _ => true) (VectorT_ctorStatic 2)
            ([4, 5] : List Nat)).1 6
        = ((VectorT_pushAll 100 true (fun _ => true) (VectorT_ctorStatic 2)
            ([4, 5] : List Nat)).1, false)) :=
  ⟨by decide,
    VectorT_static_capacity_bound 2 [4, 5] 6 (by decide) 100 true (fun _ => true)⟩

/-- A heap-mode vector holding two live elements at full capacity 2. -/
def C2vec : VectorT Nat :=
  { vector_ := [some 5, some 6], size_ := 2, nextFree_ := 2, isStatic_ := false }

/-- C2: refuted (code bug) on the growth path.  Growing `C2vec` when the
copy of element 1 fails (element 0 copies fine) must, per the claim,
destroy exactly the already-copied new-buffer elements `[0, 1)` and
leave no live element behind in a failed container.  Instead the unwind
loop `for (; i > 0 && !retval; i--) dtor(&newVector[i])` runs `dtor` on
new-buffer indices 2 and 1 — both unconstructed slots — and never on
index 0, so the failed vector keeps the live copy `some 5` at index 0 of
the installed doubled buffer. -/
theorem VectorT_resize_rollback_bug :
    VectorT_resizeIfNeeded 100 true (fun i => decide (i = 0)) C2vec =
      ({ vector_ := [some 5, none, none, none], size_ := 4, nextFree_ := 2,
          isStatic_ := false }, false, [2, 1]) := by
  decide

/-!
`MapT.h` defines the associative map as a struct wrapping one
`VectorT` of `(key, value)` pairs (`MapT_DECLARE`, `MapT.h:320`), all
operations delegating to that vector.  The embedding therefore works
directly on `VectorT (K × V)`.  Key equality (`K__##_isEqual`, value
equality per the element contract) is `DecidableEq K`; the element
lifecycle functions of the repository's plain-data element types always
succeed, so `ctorCopy`/`assign` of items are modelled as total.
-/

/-- The scan loop of `MapT_GETINDEXOF_IMPL` (`MapT.h:434`): walks the
live slots from index `i` upwards comparing with `K__##_isEqual`,
returning the first match or `-1`.  The fuel argument counts remaining
iterations (`nextFree_ - i`); an unconstructed slot (impossible for a
well-formed map) compares unequal. -/
def MapT_getIndexOfAux {K V : Type} [DecidableEq K] (m : VectorT (K × V))
    (key : K) : Nat → Nat → Int
  | 0, _ => -1
  | Nat.succ fuel, i =>
      match m.vector_.getD i none with
      | some item =>
          if key = item.1 then (i : Int) else MapT_getIndexOfAux m key fuel (i + 1)
      | none => MapT_getIndexOfAux m key fuel (i + 1)

/-- `MapT_GETINDEXOF_IMPL` (`MapT.h:434`). -/
def MapT_getIndexOf {K V : Type} [DecidableEq K] (m : VectorT (K × V))
    (key : K) : Int :=
  MapT_getIndexOfAux m key m.nextFree_ 0

/-- `MapT_FIND_IMPL` (`MapT.h:428`): `getIndexOf(self, key) >= 0`. -/
def MapT_find {K V : Type} [DecidableEq K] (m : VectorT (K × V)) (key : K) :
    Bool :=
  decide (0 ≤ MapT_getIndexOf m key)

/-- `MapT_GETSIZE_IMPL` (`MapT.h:500`): delegates to the vector. -/
def MapT_getSize {K V : Type} (m : VectorT (K × V)) : Nat :=
  VectorT_getSize m

/-- `MapT_INSERT_IMPL` (`MapT.h:384`): fails only on a duplicate key;
the results of `K__##_ctorCopy`, `V__##_ctorCopy` (total here) and of
`N__##_Impl_pushBackByPtr` are all discarded, and `true` is returned
unconditionally once the duplicate check has passed. -/
def MapT_insert (maxSize : Nat) (allocOk : Bool) {K V : Type} [DecidableEq K]
    (m : VectorT (K × V)) (key : K) (value : V) : VectorT (K × V) × Bool :=
  if MapT_find m key then (m, false)
  else
    ((VectorT_pushBack maxSize allocOk (fun _ => true) true m (key, value)).1,
      true)

/-- `MapT_REMOVEAT_IMPL` (`MapT.h:400`): when `index` is not the last
slot, copies the last item (`getElementAt(size-1)`) over slot `index`
(`replaceElementAt`), then pops the last slot. -/
def MapT_removeAt {K V : Type} (m : VectorT (K × V)) (index : Nat) :
    VectorT (K × V) :=
  VectorT_popBack
    (if index ≠ m.nextFree_ - 1 then
      match m.vector_.getD (m.nextFree_ - 1) none with
      | some tmp => (VectorT_replaceElementAt m index tmp).1
      | none => m
    else m)

/-- `MapT_REMOVE_IMPL` (`MapT.h:416`): look up, fail on a negative
index, otherwise delegate to `removeAt`. -/
def MapT_remove {K V : Type} [DecidableEq K] (m : VectorT (K × V)) (key : K) :
    VectorT (K × V) × Bool :=
  if MapT_getIndexOf m key < 0 then (m, false)
  else (MapT_removeAt m (MapT_getIndexOf m key).toNat, true)

/-- `MapT_CLEAR_IMPL` (`MapT.h:506`): delegates to the vector. -/
def MapT_clear {K V : Type} (m : VectorT (K × V)) : VectorT (K × V) :=
  VectorT_clear m

theorem VecRepr_slot {α : Type} {v : VectorT α} {ys : List α} (hr : VecRepr v ys)
    {j : Nat} (hj : j < ys.length) : v.vector_.getD j none = ys.get? j := by
  obtain ⟨hnf, hle, hbuf⟩ := hr
  rw [hbuf, List.getD_eq_getElem?_getD,
    List.getElem?_append_left (by simp only [List.length_map]; omega),
    List.getElem?_map, List.getElem?_eq_getElem hj, List.get?_eq_getElem?,
    List.getElem?_eq_getElem hj]
  rfl

theorem MapT_getIndexOfAux_notMem {K V : Type} [DecidableEq K]
    {m : VectorT (K × V)} {items : List (K × V)} (hr : VecRepr m items)
    (key : K) :
    ∀ fuel i, fuel + i = items.length →
    (∀ j, i ≤ j → j < items.length →
      (items.get? j).map Prod.fst ≠ some key) →
    MapT_getIndexOfAux m key fuel i = -1 := by
  intro fuel
  induction fuel with
  | zero => intro i hfi hnone; rfl
  | succ n ih =>
      intro i hfi hnone
      have hi : i < items.length := by omega
      have hslot := VecRepr_slot hr hi
      cases hp : items.get? i with
      | none =>
          exfalso
          have := List.get?_eq_none.mp hp
          omega
      | some p =>
          have hkey : ¬ key = p.1 := by
            have h := hnone i (Nat.le_refl i) hi
            rw [hp] at h
            simp only [Option.map_some'] at h
            intro hc
            exact h (by rw [hc])
          rw [hp] at hslot
          simp only [MapT_getIndexOfAux, hslot, if_neg hkey]
          exact ih (i + 1) (by omega) (fun j hj hj2 => hnone j (by omega) hj2)

theorem MapT_getIndexOfAux_mem {K V : Type} [DecidableEq K]
    {m : VectorT (K × V)} {items : List (K × V)} (hr : VecRepr m items)
    (key : K) :
    ∀ fuel i, fuel + i = items.length →
    (∃ j, i ≤ j ∧ j < items.length ∧
      (items.get? j).map Prod.fst = some key) →
    ∃ j, i ≤ j ∧ j < items.length ∧
      MapT_getIndexOfAux m key fuel i = (j : Int) ∧
      (items.get? j).map Prod.fst = some key := by
  intro fuel
  induction fuel with
  | zero =>
      intro i hfi hex
      obtain ⟨j, hij, hjl, hjk⟩ := hex
      omega
  | succ n ih =>
      intro i hfi hex
      have hi : i < items.length := by omega
      have hslot := VecRepr_slot hr hi
      cases hp : items.get? i with
      | none =>
          exfalso
          have := List.get?_eq_none.mp hp
          omega
      | some p =>
          rw [hp] at hslot
          by_cases hkey : key = p.1
          · refine ⟨i, Nat.le_refl i, hi, ?_, ?_⟩
            · simp only [MapT_getIndexOfAux]
              rw [hslot]
              simp [hkey]
            · rw [hp]
              simp only [Option.map_some']
              rw [hkey]
          · have hex2 : ∃ j, i + 1 ≤ j ∧ j < items.length ∧
                (items.get? j).map Prod.fst = some key := by
              obtain ⟨j, hij, hjl, hjk⟩ := hex
              rcases Nat.eq_or_lt_of_le hij with heq | hlt
              · exfalso
                rw [← heq, hp] at hjk
                simp only [Option.map_some', Option.some_inj] at hjk
                exact hkey hjk.symm
              · exact ⟨j, hlt, hjl, hjk⟩
            obtain ⟨j, hij, hjl, hq, hjk⟩ := ih (i + 1) (by omega) hex2
            refine ⟨j, by omega, hjl, ?_, hjk⟩
            simp only [MapT_getIndexOfAux, hslot, if_neg hkey]
            exact hq

theorem mem_keys_iff_idx {K V : Type} (items : List (K × V)) (key : K) :
    key ∈ items.map Prod.fst ↔
      ∃ j, j < items.length ∧ (items.get? j).map Prod.fst = some key := by
  constructor
  · intro h
    obtain ⟨p, hp, hpk⟩ := List.mem_map.mp h
    obtain ⟨n, hn⟩ := List.mem_iff_get?.mp hp
    have hlt : n < items.length := by
      by_contra hc
      rw [List.get?_eq_none.mpr (by omega)] at hn
      exact Option.noConfusion hn
    refine ⟨n, hlt, ?_⟩
    rw [hn]
    simp only [Option.map_some']
    rw [hpk]
  · intro ⟨j, hj, hjk⟩
    cases hp : items.get? j with
    | none =>
        rw [hp] at hjk
        exact Option.noConfusion hjk
    | some p =>
        rw [hp] at hjk
        simp only [Option.map_some', Option.some_inj] at hjk
        exact List.mem_map.mpr ⟨p, List.get?_mem hp, hjk⟩

theorem MapT_find_iff {K V : Type} [DecidableEq K] {m : VectorT (K × V)}
    {items : List (K × V)} (hr : VecRepr m items) (key : K) :
    MapT_find m key = true ↔ key ∈ items.map Prod.fst := by
  constructor
  · intro h
    by_contra hmem
    have hnone : ∀ j, 0 ≤ j → j < items.length →
        (items.get? j).map Prod.fst ≠ some key := by
      intro j hj0 hjl hjk
      exact hmem ((mem_keys_iff_idx items key).mpr ⟨j, hjl, hjk⟩)
    have := MapT_getIndexOfAux_notMem hr key m.nextFree_ 0
      (by rw [hr.1]; omega) hnone
    rw [MapT_find, MapT_getIndexOf, this] at h
    simp at h
  · intro hmem
    obtain ⟨j, hjl, hjk⟩ := (mem_keys_iff_idx items key).mp hmem
    obtain ⟨j2, h0, hj2, hq, hk2⟩ := MapT_getIndexOfAux_mem hr key m.nextFree_ 0
      (by rw [hr.1]; omega) ⟨j, Nat.zero_le j, hjl, hjk⟩
    rw [MapT_find, MapT_getIndexOf, hq]
    simp

theorem eq_dropLast_append {α : Type} {l : List α} {p : α} (hne : l ≠ [])
    (h : l.get? (l.length - 1) = some p) : l = l.dropLast ++ [p] := by
  rw [List.get?_eq_getElem?] at h
  obtain ⟨hlt, hget⟩ := List.getElem?_eq_some_iff.mp h
  have hgl : l.getLast hne = p := by
    rw [List.getLast_eq_getElem]
    exact hget
  conv_lhs => rw [← List.dropLast_concat_getLast hne]
  rw [hgl]

theorem map_some_set_lt {α : Type} (ys : List α) (rest : List (Option α))
    (i : Nat) (x : α) (h : i < ys.length) :
    (List.map some ys ++ rest).set i (some x) =
      List.map some (ys.set i x) ++ rest := by
  rw [List.set_append_left _ _ (by simpa using h), List.map_set]

theorem VectorT_popBack_repr {α : Type} {v : VectorT α} {ys : List α} {y : α}
    (hr : VecRepr v (ys ++ [y])) :
    VecRepr (VectorT_popBack v) ys ∧
    (VectorT_popBack v).size_ = v.size_ := by
  obtain ⟨hnf, hle, hbuf⟩ := hr
  simp only [List.length_append, List.length_cons, List.length_nil] at hnf hle
  have hpos : 0 < v.nextFree_ := by omega
  have hpe : VectorT_popBack v =
      { v with
          vector_ := v.vector_.set (v.nextFree_ - 1) none
          nextFree_ := v.nextFree_ - 1 } := by
    rw [VectorT_popBack, if_pos hpos]
  rw [hpe]
  refine ⟨⟨?_, ?_, ?_⟩, rfl⟩
  · simp
    omega
  · simp
    omega
  · simp only []
    rw [hbuf, hnf, List.map_append, List.append_assoc]
    have hlm : ys.length + 1 - 1 = (List.map some ys).length := by simp
    rw [hlm, set_append_len]
    simp only [List.map_cons, List.map_nil, List.cons_append, List.nil_append,
      List.set_cons_zero]
    congr 1
    have h2 : v.size_ - ys.length = (v.size_ - (ys.length + 1)) + 1 := by omega
    rw [h2, List.replicate_succ]
    simp

theorem VectorT_replaceElementAt_repr {α : Type} {v : VectorT α} {ys : List α}
    (hr : VecRepr v ys) {i : Nat} (hi : i < ys.length) (x : α) :
    VecRepr (VectorT_replaceElementAt v i x).1 (ys.set i x) ∧
    (VectorT_replaceElementAt v i x).1.size_ = v.size_ ∧
    (VectorT_replaceElementAt v i x).1.nextFree_ = v.nextFree_ := by
  obtain ⟨hnf, hle, hbuf⟩ := hr
  refine ⟨⟨?_, ?_, ?_⟩, rfl, rfl⟩
  · simp [VectorT_replaceElementAt, hnf]
  · simp only [VectorT_replaceElementAt, List.length_set]
    omega
  · simp only [VectorT_replaceElementAt]
    rw [hbuf, map_some_set_lt _ _ _ _ hi]
    simp

theorem MapT_removeAt_repr {K V : Type} {m : VectorT (K × V)}
    {items : List (K × V)} (hr : VecRepr m items) {i : Nat}
    (hi : i < items.length) {plast : K × V}
    (hlast : items.get? (items.length - 1) = some plast) :
    VecRepr (MapT_removeAt m i)
      (if i = items.length - 1 then items.dropLast
        else (items.set i plast).dropLast) ∧
    (MapT_removeAt m i).size_ = m.size_ ∧
    (MapT_removeAt m i).nextFree_ = items.length - 1 := by
  have hne : items ≠ [] := by
    intro h
    rw [h] at hi
    simp at hi
  have hslot := VecRepr_slot hr (show items.length - 1 < items.length by omega)
  rw [hlast] at hslot
  obtain ⟨hnf, hle, hbuf⟩ := hr
  by_cases hil : i = items.length - 1
  · have hm1 : MapT_removeAt m i = VectorT_popBack m := by
      unfold MapT_removeAt
      rw [hnf, if_neg (by omega)]
    rw [hm1, if_pos hil]
    have hsplit : items = items.dropLast ++ [plast] := eq_dropLast_append hne hlast
    have hr2 : VecRepr m (items.dropLast ++ [plast]) := by
      rw [← hsplit]
      exact ⟨hnf, hle, hbuf⟩
    obtain ⟨hrep, hsz⟩ := VectorT_popBack_repr hr2
    refine ⟨hrep, hsz, ?_⟩
    rw [hrep.1]
    simp
  · have hm1 : MapT_removeAt m i =
        VectorT_popBack (VectorT_replaceElementAt m i plast).1 := by
      unfold MapT_removeAt
      rw [hnf, if_pos hil, hslot]
    obtain ⟨hrep1, hsz1, hnf1⟩ :=
      VectorT_replaceElementAt_repr ⟨hnf, hle, hbuf⟩ hi plast
    have hlast2 : (items.set i plast).get? ((items.set i plast).length - 1) =
        some plast := by
      rw [List.length_set, List.get?_set_ne _ _ hil]
      exact hlast
    have hne2 : items.set i plast ≠ [] := by
      intro h
      have h2 : (items.set i plast).length = 0 := by
        rw [h]
        rfl
      rw [List.length_set] at h2
      omega
    have hsplit2 := eq_dropLast_append hne2 hlast2
    have hr3 : VecRepr (VectorT_replaceElementAt m i plast).1
        ((items.set i plast).dropLast ++ [plast]) := by
      rw [← hsplit2]
      exact hrep1
    obtain ⟨hrep2, hsz2⟩ := VectorT_popBack_repr hr3
    rw [hm1, if_neg hil]
    refine ⟨hrep2, by rw [hsz2, hsz1], ?_⟩
    rw [hrep2.1]
    simp

theorem get?_map_fst {K V : Type} (items : List (K × V)) (j : Nat) :
    (items.map Prod.fst).get? j = (items.get? j).map Prod.fst := by
  rw [List.get?_eq_getElem?, List.get?_eq_getElem?, List.getElem?_map]

theorem not_mem_dropLast_last {κ : Type} {ks : List κ} (hnd : ks.Nodup) {a : κ}
    (hlen : 0 < ks.length) (ha : ks.get? (ks.length - 1) = some a) :
    a ∉ ks.dropLast := by
  intro hmem
  obtain ⟨j, hjget⟩ := List.mem_iff_get?.mp hmem
  obtain ⟨hjlt, -⟩ := List.get?_eq_some.mp hjget
  have hjlen : j < ks.length - 1 := by
    simpa using hjlt
  have hget2 : ks.get? j = some a := by
    rw [List.dropLast_eq_take, List.get?_eq_getElem?,
      List.getElem?_take_of_lt (by omega)] at hjget
    rw [List.get?_eq_getElem?]
    exact hjget
  have : j = ks.length - 1 := List.get?_inj (by omega) hnd (by rw [hget2, ha])
  omega

theorem get?_set_dropLast {κ : Type} {ks : List κ} {i : Nat}
    (hi : i < ks.length) (b : κ) {k : Nat} (hk : k < ks.length - 1) :
    ((ks.set i b).dropLast).get? k = if k = i then some b else ks.get? k := by
  rw [List.dropLast_eq_take, List.get?_eq_getElem?,
    List.getElem?_take_of_lt (by simp only [List.length_set]; omega)]
  by_cases hki : k = i
  · rw [if_pos hki, hki, ← List.get?_eq_getElem?, List.get?_set_eq_of_lt _ hi]
  · rw [if_neg hki, ← List.get?_eq_getElem?,
      List.get?_set_ne _ _ (fun h => hki h.symm)]

theorem not_mem_dropLast_set {κ : Type} {ks : List κ} (hnd : ks.Nodup) {i : Nat}
    (hi : i < ks.length) (hil : i ≠ ks.length - 1) {a b : κ}
    (ha : ks.get? i = some a) (hb : ks.get? (ks.length - 1) = some b) :
    a ∉ (ks.set i b).dropLast := by
  intro hmem
  obtain ⟨j, hjget⟩ := List.mem_iff_get?.mp hmem
  obtain ⟨hjlt, -⟩ := List.get?_eq_some.mp hjget
  have hjlen : j < ks.length - 1 := by
    simpa using hjlt
  rw [get?_set_dropLast hi b hjlen] at hjget
  by_cases hji : j = i
  · rw [if_pos hji] at hjget
    have hba : b = a := Option.some.inj hjget
    have : i = ks.length - 1 :=
      List.get?_inj (by omega) hnd (by rw [ha, hb, hba])
    exact hil this
  · rw [if_neg hji] at hjget
    have : j = i := List.get?_inj (by omega) hnd (by rw [hjget, ha])
    exact hji this

theorem nodup_set_dropLast {κ : Type} {ks : List κ} (hnd : ks.Nodup) {i : Nat}
    (hi : i < ks.length) {b : κ} (hb : ks.get? (ks.length - 1) = some b) :
    ((ks.set i b).dropLast).Nodup := by
  rw [List.nodup_iff_get?_ne_get?]
  intro i2 j2 hij hjl
  have hjlen : j2 < ks.length - 1 := by
    simpa using hjl
  rw [get?_set_dropLast hi b (by omega), get?_set_dropLast hi b (by omega)]
  by_cases h1 : i2 = i <;> by_cases h2 : j2 = i
  · omega
  · rw [if_pos h1, if_neg h2]
    intro heq
    have : ks.length - 1 = j2 :=
      List.get?_inj (by omega) hnd (by rw [hb, heq])
    omega
  · rw [if_neg h1, if_pos h2]
    intro heq
    have : i2 = ks.length - 1 :=
      List.get?_inj (by omega) hnd (by rw [heq, hb])
    omega
  · rw [if_neg h1, if_neg h2]
    intro heq
    have : i2 = j2 := List.get?_inj (by omega) hnd heq
    omega

theorem MapT_removeAt_key_gone {K V : Type} [DecidableEq K]
    {m : VectorT (K × V)} {items : List (K × V)} (hr : VecRepr m items)
    {i : Nat} {pi plast : K × V} (hpi : items.get? i = some pi)
    (hlast : items.get? (items.length - 1) = some plast)
    (hnd : (items.map Prod.fst).Nodup) :
    MapT_find (MapT_removeAt m i) pi.1 = false ∧
    (MapT_removeAt m i).nextFree_ = items.length - 1 := by
  have hi : i < items.length := (List.get?_eq_some.mp hpi).1
  obtain ⟨hrep, hsz, hnf⟩ := MapT_removeAt_repr hr hi hlast
  have hkslen : (items.map Prod.fst).length = items.length := by simp
  have hki : (items.map Prod.fst).get? i = some pi.1 := by
    rw [get?_map_fst, hpi]
    rfl
  refine ⟨?_, hnf⟩
  by_cases hil : i = items.length - 1
  · rw [if_pos hil] at hrep
    have hlast2 : (items.map Prod.fst).get? ((items.map Prod.fst).length - 1) =
        some pi.1 := by
      rw [hkslen, ← hil]
      exact hki
    have hnm : pi.1 ∉ (items.dropLast).map Prod.fst := by
      rw [List.map_dropLast]
      exact not_mem_dropLast_last hnd (by rw [hkslen]; omega) hlast2
    rw [Bool.eq_false_iff]
    intro hT
    exact hnm ((MapT_find_iff hrep pi.1).mp hT)
  · rw [if_neg hil] at hrep
    have hklast : (items.map Prod.fst).get? ((items.map Prod.fst).length - 1) =
        some plast.1 := by
      rw [hkslen, get?_map_fst, hlast]
      rfl
    have hnm : pi.1 ∉ ((items.set i plast).dropLast).map Prod.fst := by
      rw [List.map_dropLast, List.map_set]
      exact not_mem_dropLast_set hnd (by rw [hkslen]; exact hi)
        (by rw [hkslen]; exact hil) hki hklast
    rw [Bool.eq_false_iff]
    intro hT
    exact hnm ((MapT_find_iff hrep pi.1).mp hT)

/-- C7: confirmed.  For a map of `n >= 1` pairwise-distinct keys and a
valid index `i` holding `pi`, `removeAt i` leaves `n - 1` entries; when
`i` is not the last index, the former last pair `plast` now sits at
index `i` (live contents `(items.set i plast).dropLast`), when `i` is
the last index the last pair is simply dropped, and in both cases the
removed key is no longer found. -/
theorem MapT_removeAt_swap_with_last {K V : Type} [DecidableEq K]
    {m : VectorT (K × V)} {items : List (K × V)} (hr : VecRepr m items)
    {i : Nat} {pi plast : K × V} (hpi : items.get? i = some pi)
    (hlast : items.get? (items.length - 1) = some plast)
    (hnd : (items.map Prod.fst).Nodup) :
    MapT_getSize (MapT_removeAt m i) = items.length - 1 ∧
    (i ≠ items.length - 1 →
      VecRepr (MapT_removeAt m i) ((items.set i plast).dropLast)) ∧
    (i = items.length - 1 →
      VecRepr (MapT_removeAt m i) items.dropLast) ∧
    MapT_find (MapT_removeAt m i) pi.1 = false := by
  have hi : i < items.length := (List.get?_eq_some.mp hpi).1
  obtain ⟨hrep, hsz, hnf⟩ := MapT_removeAt_repr hr hi hlast
  obtain ⟨hfind, -⟩ := MapT_removeAt_key_gone hr hpi hlast hnd
  refine ⟨?_, ?_, ?_, hfind⟩
  · rw [MapT_getSize, VectorT_getSize, hnf]
  · intro h
    rwa [if_neg h] at hrep
  · intro h
    rwa [if_pos h] at hrep

/-- A static map holding the three pairs (1,10), (2,20), (3,30). -/
def C7map : VectorT (Nat × Nat) :=
  { vector_ := [some (1, 10), some (2, 20), some (3, 30)], size_ := 3,
    nextFree_ := 3, isStatic_ := true }

def C7items : List (Nat × Nat) := [(1, 10), (2, 20), (3, 30)]

theorem MapT_removeAt_swap_with_last_witness :
    MapT_getSize (MapT_removeAt C7map 0) = C7items.length - 1 ∧
    (0 ≠ C7items.length - 1 →
      VecRepr (MapT_removeAt C7map 0) ((C7items.set 0 (3, 30)).dropLast)) ∧
    (0 = C7items.length - 1 →
      VecRepr (MapT_removeAt C7map 0) C7items.dropLast) ∧
    MapT_find (MapT_removeAt C7map 0) 1 = false :=
  MapT_removeAt_swap_with_last (by decide)
    (show C7items.get? 0 = some (1, 10) from rfl)
    (show C7items.get? (C7items.length - 1) = some (3, 30) from rfl)
    (by decide)

/-- C6: confirmed (with the elementwise operations total, as for the
repository's plain-data element types, and growth not involved).
Inserting an already-present key fails with the map unchanged; a
successful insert of an absent key (room available) appends the pair,
makes the key findable, grows the size by one, and preserves pairwise
distinctness of keys; insert into a full static map leaves the contents
and size unchanged; and removing any stored key succeeds, after which
the key is no longer found and the size has shrunk by one. -/
theorem MapT_key_uniqueness {K V : Type} [DecidableEq K] (maxSize : Nat)
    (allocOk : Bool) {m : VectorT (K × V)} {items : List (K × V)}
    (hr : VecRepr m items) (key : K) (value : V) :
    (MapT_find m key = true →
      MapT_insert maxSize allocOk m key value = (m, false)) ∧
    (MapT_find m key = false → items.length < m.size_ →
      (MapT_insert maxSize allocOk m key value).2 = true ∧
      VecRepr (MapT_insert maxSize allocOk m key value).1
        (items ++ [(key, value)]) ∧
      MapT_find (MapT_insert maxSize allocOk m key value).1 key = true ∧
      MapT_getSize (MapT_insert maxSize allocOk m key value).1 =
        items.length + 1 ∧
      ((items.map Prod.fst).Nodup →
        ((items ++ [(key, value)]).map Prod.fst).Nodup)) ∧
    (MapT_find m key = false → items.length = m.size_ → m.isStatic_ = true →
      (MapT_insert maxSize allocOk m key value).1 = m ∧
      MapT_getSize (MapT_insert maxSize allocOk m key value).1 =
        items.length) ∧
    ((items.map Prod.fst).Nodup →
      ∀ j pj, items.get? j = some pj →
        (MapT_remove m pj.1).2 = true ∧
        MapT_find (MapT_remove m pj.1).1 pj.1 = false ∧
        MapT_getSize (MapT_remove m pj.1).1 = items.length - 1) := by
  refine ⟨?_, ?_, ?_, ?_⟩
  · intro h
    simp [MapT_insert, h]
  · intro h hroom
    have hpe : MapT_insert maxSize allocOk m key value =
        ((VectorT_pushBack maxSize allocOk (fun _ => true) true m
          (key, value)).1, true) := by
      simp [MapT_insert, h]
    obtain ⟨hok, hrep2, hsz2, -⟩ :=
      VectorT_pushBack_repr hr hroom maxSize allocOk (fun _ => true)
        (key, value)
    rw [hpe]
    refine ⟨rfl, hrep2, ?_, ?_, ?_⟩
    · exact (MapT_find_iff hrep2 key).mpr
        (List.mem_map.mpr ⟨(key, value), by simp, rfl⟩)
    · rw [MapT_getSize, VectorT_getSize, hrep2.1]
      simp
    · intro hnd
      have hnotmem : key ∉ items.map Prod.fst := by
        intro hm
        rw [(MapT_find_iff hr key).mpr hm] at h
        exact Bool.noConfusion h
      rw [List.map_append, List.nodup_append]
      refine ⟨hnd, by simp, ?_⟩
      intro a ha hb
      simp at hb
      rw [hb] at ha
      exact hnotmem ha
  · intro h hful hstat
    have hpb := VectorT_pushBack_full_static hr hful hstat maxSize allocOk
      (fun _ => true) true (key, value)
    have hpe : MapT_insert maxSize allocOk m key value =
        ((VectorT_pushBack maxSize allocOk (fun _ => true) true m
          (key, value)).1, true) := by
      simp [MapT_insert, h]
    rw [hpe, hpb]
    exact ⟨rfl, by rw [MapT_getSize, VectorT_getSize, hr.1]⟩
  · intro hnd j pj hget
    have hjlt : j < items.length := (List.get?_eq_some.mp hget).1
    obtain ⟨j2, -, hj2lt, hq, hk2⟩ :=
      MapT_getIndexOfAux_mem hr pj.1 m.nextFree_ 0 (by rw [hr.1]; omega)
        ⟨j, Nat.zero_le j, hjlt, by rw [hget]; rfl⟩
    have hqIdx : MapT_getIndexOf m pj.1 = (j2 : Int) := hq
    cases hp2 : items.get? j2 with
    | none =>
        exfalso
        have := List.get?_eq_none.mp hp2
        omega
    | some pj2 =>
        have hpj2 : pj2.1 = pj.1 := by
          rw [hp2] at hk2
          simpa using hk2
        have hrm : MapT_remove m pj.1 = (MapT_removeAt m j2, true) := by
          simp only [MapT_remove, hqIdx]
          rw [if_neg (by omega)]
          simp
        cases hlp : items.get? (items.length - 1) with
        | none =>
            exfalso
            have := List.get?_eq_none.mp hlp
            omega
        | some plast =>
            obtain ⟨hfind2, hnf2⟩ := MapT_removeAt_key_gone hr hp2 hlp hnd
            rw [hrm]
            refine ⟨rfl, ?_, ?_⟩
            · rw [← hpj2]
              exact hfind2
            · rw [MapT_getSize, VectorT_getSize, hnf2]

/-- A static map of capacity 2 holding the single pair (1,10). -/
def C6map : VectorT (Nat × Nat) :=
  { vector_ := [some (1, 10), none], size_ := 2, nextFree_ := 1,
    isStatic_ := true }

def C6items : List (Nat × Nat) := [(1, 10)]

theorem MapT_key_uniqueness_witness :
    (MapT_find C6map 2 = true →
      MapT_insert 100 true C6map 2 20 = (C6map, false)) ∧
    (MapT_find C6map 2 = false → C6items.length < C6map.size_ →
      (MapT_insert 100 true C6map 2 20).2 = true ∧
      VecRepr (MapT_insert 100 true C6map 2 20).1 (C6items ++ [(2, 20)]) ∧
      MapT_find (MapT_insert 100 true C6map 2 20).1 2 = true ∧
      MapT_getSize (MapT_insert 100 true C6map 2 20).1 =
        C6items.length + 1 ∧
      ((C6items.map Prod.fst).Nodup →
        ((C6items ++ [(2, 20)]).map Prod.fst).Nodup)) ∧
    (MapT_find C6map 2 = false → C6items.length = C6map.size_ →
      C6map.isStatic_ = true →
      (MapT_insert 100 true C6map 2 20).1 = C6map ∧
      MapT_getSize (MapT_insert 100 true C6map 2 20).1 = C6items.length) ∧
    ((C6items.map Prod.fst).Nodup →
      ∀ j pj, C6items.get? j = some pj →
        (MapT_remove C6map pj.1).2 = true ∧
        MapT_find (MapT_remove C6map pj.1).1 pj.1 = false ∧
        MapT_getSize (MapT_remove C6map pj.1).1 = C6items.length - 1) :=
  MapT_key_uniqueness 100 true (by decide) 2 20

/-- A full static map of capacity 1 holding the single pair (1,10). -/
def C5map : VectorT (Nat × Nat) :=
  { vector_ := [some (1, 10)], size_ := 1, nextFree_ := 1, isStatic_ := true }

/-- C5: refuted (code bug).  `MapT_INSERT_IMPL` discards the boolean
results of the key copy, the value copy and of `pushBackByPtr`
(`MapT.h:394-396`) and returns true whenever the duplicate check
passes.  On the full static map `C5map`, inserting the absent key 2
makes the underlying append fail (static capacity exhausted), the map
is left unchanged and the key is not stored — yet `insert` returns
true, where the claim (and the function's own documentation,
`MapT.h:158-162`) requires `false`. -/
theorem MapT_insert_ignores_failures :
    VectorT_pushBack 100 true (fun _ => true) true C5map (2, 20) =
      (C5map, false) ∧
    MapT_insert 100 true C5map 2 20 = (C5map, true) ∧
    MapT_find (MapT_insert 100 true C5map 2 20).1 2 = false ∧
    MapT_getSize (MapT_insert 100 true C5map 2 20).1 = 1 := by
  decide

end LibUtils
